import Mathlib

/-!
Verification of the `timerqueue` Go package (`timerqueue.go`): a delay
queue backed by a doubly-linked list of elements (`first`/`last` with
`next`/`prev` pointers) and a key index (the Go map
`m : map[interface{}]*element`), with background waiter goroutines
(`(*Queue).timer`) that fire expired heads.

Modelling conventions:
* `time.Time` and `time.Duration` values are natural numbers; the value of
  `time.Now()` inside an operation is an explicit `now` parameter of that
  operation.
* Go pointer identity of `*element` is modelled by a numeric `id`, freshly
  allocated from `Queue.nextId` each time `Add` allocates an element.  The
  linked list from `first` to `last` is the list `Queue.seq` (head =
  `first`, last entry = `last`); unlinking a node (`(*Queue).remove`) is
  removal of the unique entry with that id.  The map `m` is the
  association list `Queue.index`, mapping a key to the id of its element.
* `go q.timer(el, el.time)` is modelled by the spawned `Waiter` value
  carrying the pointed-to element's id and the captured deadline.
* The `panic("Value already in queue")` in `Add` happens before any
  mutation; it is modelled by `Except.error AddError.duplicateKey`.
* Goroutine interleaving under the single mutex `q.mu` is a labelled
  transition system `Step` on `Sys`: each lock-protected critical section
  is one atomic step, and every callback invocation, which the Go code
  performs outside the lock, is a separate pair of steps (start and
  return), between which arbitrary other steps may interleave.
-/

namespace Timerqueue

/-- One node of the queue's doubly-linked list (`type element`).  `id`
models the Go pointer identity of `*element`; `v` is the caller-supplied
key; `time` is the deadline `now + duration` set at `Add` or `Reset`. -/
structure Elem (K : Type) where
  id : Nat
  v : K
  time : Nat
deriving DecidableEq, Repr

/-- The queue state (`type Queue`): `seq` is the doubly-linked list read
from `first` to `last`, `index` models the Go map `m` as an association
list from key to element id, `nextId` is the allocator for pointer
identities, and `duration` is the fixed queue duration. -/
structure Queue (K : Type) where
  seq : List (Elem K)
  index : List (K × Nat)
  nextId : Nat
  duration : Nat
deriving DecidableEq, Repr

/-- The parameters of a spawned `timer` goroutine: the identity of the
element it believes is head, and the deadline it captured for it. -/
structure Waiter where
  elemId : Nat
  time : Nat
deriving DecidableEq, Repr

/-- Map lookup `q.m[v]`, returning the element id bound to key `k`. -/
def lookupKey {K : Type} [DecidableEq K] : List (K × Nat) → K → Option Nat
  | [], _ => none
  | p :: rest, k => if p.1 = k then some p.2 else lookupKey rest k

/-- Map deletion `delete(q.m, v)`: removes the entry for key `k` (the
first one; under the no-duplicate-keys invariant it is unique). -/
def eraseKey {K : Type} [DecidableEq K] : List (K × Nat) → K → List (K × Nat)
  | [], _ => []
  | p :: rest, k => if p.1 = k then rest else p :: eraseKey rest k

/-- Unlinking a node from the doubly-linked list (`(*Queue).remove`):
removes the entry with id `i` (the first one; under the distinct-ids
invariant it is unique). -/
def eraseById {K : Type} : List (Elem K) → Nat → List (Elem K)
  | [], _ => []
  | e :: rest, i => if e.id = i then rest else e :: eraseById rest i

/-- Dereferencing the map's element pointer: the element of the list
carrying id `i`. -/
def elemById {K : Type} : List (Elem K) → Nat → Option (Elem K)
  | [], _ => none
  | e :: rest, i => if e.id = i then some e else elemById rest i

/-- The waiter that `go q.timer(q.first, q.first.time)` would spawn for
the current sequence: bound to the head element and its deadline, or
nothing when the sequence is empty (`q.first == nil`). -/
def headWaiter {K : Type} : List (Elem K) → Option Waiter
  | [] => none
  | e :: _ => some ⟨e.id, e.time⟩

/-- The contract violation signalled by `Add` on a duplicate key
(`panic("Value already in queue")` in the source). -/
inductive AddError where
  | duplicateKey
deriving DecidableEq, Repr

/-- `New(callback, duration)`: empty list, empty map. -/
def Queue.new (K : Type) (duration : Nat) : Queue K :=
  ⟨[], [], 0, duration⟩

/-- `(*Queue).Add`: panics (error) when the key is already in the map,
otherwise allocates a fresh element with deadline `now + duration`,
indexes it, appends it at the tail (`push`), and, when the new element
became `q.first` (i.e. the list was empty before), spawns a waiter bound
to `(el, el.time)`. -/
def Queue.add {K : Type} [DecidableEq K] (q : Queue K) (v : K) (now : Nat) :
    Except AddError (Queue K × Option Waiter) :=
  match lookupKey q.index v with
  | some _ => .error .duplicateKey
  | none =>
    let el : Elem K := ⟨q.nextId, v, now + q.duration⟩
    let q' : Queue K :=
      { q with
        index := (v, el.id) :: q.index
        seq := q.seq ++ [el]
        nextId := q.nextId + 1 }
    .ok (q', if q.seq.isEmpty then headWaiter q'.seq else none)

/-- `(*Queue).Len`: `len(q.m)`. -/
def Queue.len {K : Type} (q : Queue K) : Nat :=
  q.index.length

/-- `(*Queue).Remove`: looks the key up in the map; when absent returns
`false` and changes nothing; when present deletes the map entry, unlinks
the element, and, when the removed element was `q.first` and the list is
still non-empty, spawns a waiter for the new head. -/
def Queue.removeKey {K : Type} [DecidableEq K] (q : Queue K) (v : K) :
    Queue K × Bool × Option Waiter :=
  match lookupKey q.index v with
  | none => (q, false, none)
  | some i =>
    let wasFirst : Bool :=
      match q.seq with
      | [] => false
      | e :: _ => e.id = i
    let seq' := eraseById q.seq i
    let q' : Queue K := { q with index := eraseKey q.index v, seq := seq' }
    (q', true, if wasFirst then headWaiter seq' else none)

/-- `(*Queue).Reset`: looks the key up in the map; when absent returns
`false`; when present sets the element's deadline to `now + duration`,
unlinks it, re-appends it at the tail, and, when the element was
`q.first`, spawns a waiter for the (new) head.  The inner `none` branch
of `elemById` cannot be reached while the index and the sequence agree
(in Go the map stores a pointer straight into the list). -/
def Queue.reset {K : Type} [DecidableEq K] (q : Queue K) (v : K) (now : Nat) :
    Queue K × Bool × Option Waiter :=
  match lookupKey q.index v with
  | none => (q, false, none)
  | some i =>
    match elemById q.seq i with
    | none => (q, false, none)
    | some el =>
      let el' : Elem K := { el with time := now + q.duration }
      let wasFirst : Bool :=
        match q.seq with
        | [] => false
        | e :: _ => e.id = i
      let q' : Queue K := { q with seq := eraseById q.seq i ++ [el'] }
      (q', true, if wasFirst then headWaiter q'.seq else none)

/-- `(*Queue).clear`: detaches the whole list (returning its former
head, i.e. the detached chain in order) and the map size, and resets the
queue to empty list and fresh map. -/
def Queue.clearQ {K : Type} (q : Queue K) : Queue K × List (Elem K) × Nat :=
  ({ q with seq := [], index := [] }, q.seq, q.index.length)

/-- The loop body of `(*Queue).Clear`: walks the detached chain writing
`el.v` into slot `i` of the result slice (`elems[i] = el.v`).  Indexing a
slot out of bounds panics in Go; that is the `none` result. -/
def fillLoop {K : Type} : List (Elem K) → Nat → List (Option K) → Option (List (Option K))
  | [], _, arr => some arr
  | e :: rest, i, arr =>
    if i < arr.length then fillLoop rest (i + 1) (arr.set i (some e.v))
    else none

/-- `(*Queue).Clear`: detaches via `clear`, allocates a slice of length
`l` (`make([]interface{}, l)`, all slots nil), and copies the detached
chain into it.  Returns the new queue state and the built slice (`none`
when the copy loop would index out of bounds). -/
def Queue.clearOp {K : Type} (q : Queue K) : Queue K × Option (List (Option K)) :=
  let r := q.clearQ
  (r.1, fillLoop r.2.1 0 (List.replicate r.2.2 none))

/-- `(*Queue).Flush`: detaches via `clear` and then invokes the callback
once per detached element, in chain order, outside the lock.  The second
component is the sequence of keys passed to the callback, in invocation
order. -/
def Queue.flushDetach {K : Type} (q : Queue K) : Queue K × List K :=
  ((q.clearQ).1, (q.clearQ).2.1.map (fun e => e.v))

/-- One wake of the `(*Queue).timer` loop, from acquiring the lock: when
the remembered element is no longer `q.first` or the head's deadline is
not the remembered `t`, the waiter breaks with no effect (first and
second components unchanged/`none`).  Otherwise it unlinks the head,
deletes its map entry, and returns the fired key together with the
`(el, t)` pair the same goroutine continues sleeping on (`none` when the
queue became empty, in which case it breaks after the callback). -/
def Queue.wake {K : Type} [DecidableEq K] (q : Queue K) (elemId : Nat) (t : Nat) :
    Queue K × Option K × Option Waiter :=
  match q.seq with
  | [] => (q, none, none)
  | e :: rest =>
    if e.id = elemId ∧ e.time = t then
      ({ q with seq := rest, index := eraseKey q.index e.v }, some e.v, headWaiter rest)
    else (q, none, none)

/-! ## The concurrent system

Goroutines interleave under the single mutex; each lock-protected
critical section of the source is one atomic transition, and callback
invocations (performed by the source outside the lock) are separate
begin/end transitions so that other transitions can interleave with a
running callback. -/

/-- A goroutine of the system, other than the currently-mutating caller:
* `sleeping w` — a `timer` goroutine asleep until `w.time`, bound to the
  element id `w.elemId`;
* `calling k cont` — a `timer` goroutine currently inside `q.cb(v)` with
  `v = k`; after the callback returns it continues as `sleeping` on
  `cont`, or terminates when `cont = none`;
* `flushing pending` — a caller inside `Flush` after the detach, with
  `pending` the keys it has not yet fired;
* `flushCalling k pending` — a `Flush` caller currently inside `q.cb(v)`
  with `v = k`, with `pending` still to fire afterwards. -/
inductive Thread (K : Type) where
  | sleeping (w : Waiter)
  | calling (k : K) (cont : Option Waiter)
  | flushing (pending : List K)
  | flushCalling (k : K) (pending : List K)
deriving DecidableEq, Repr

/-- The threads created by an `Option Waiter` spawn result. -/
def spawnList {K : Type} : Option Waiter → List (Thread K)
  | none => []
  | some w => [Thread.sleeping w]

/-- A configuration of the whole system: the shared queue, the goroutines
in flight, and a ghost log of the `(element id, key)` pairs fired by
`timer` goroutines, in firing order. -/
structure Sys (K : Type) where
  q : Queue K
  threads : List (Thread K)
  fired : List (Nat × K)
deriving DecidableEq, Repr

/-- The system right after `New`: no goroutines, nothing fired. -/
def Sys.init {K : Type} (q : Queue K) : Sys K :=
  ⟨q, [], []⟩

/-- Transition labels. -/
inductive Lbl (K : Type) where
  | add (v : K) (now : Nat)
  | remove (v : K)
  | reset (v : K) (now : Nat)
  | clear
  | flushStart
  | flushCall (k : K)
  | flushRet (k : K)
  | flushEnd
  | wakeStale (w : Waiter)
  | wakeFire (w : Waiter) (k : K)
  | cbRet (k : K)
deriving DecidableEq, Repr

/-- Labelled transitions of the system.  `add`, `remove`, `reset`,
`clear` and `flushStart` are the lock-protected critical sections of the
corresponding public operations (`flushStart` is `Flush`'s call to
`clear`); `flushCall`/`flushRet` bracket one callback invocation of the
`Flush` loop; `flushEnd` is the `Flush` caller leaving its loop;
`wakeStale` is a `timer` goroutine waking and failing the
`el != q.first || t != el.time` check; `wakeFire` is a waking `timer`
goroutine passing the check, unlinking the head and entering the
callback; `cbRet` is a `timer` goroutine's callback returning, after
which it loops (sleeping on the next head) or terminates. -/
inductive Step {K : Type} [DecidableEq K] : Lbl K → Sys K → Sys K → Prop where
  | add {q : Queue K} {v : K} {now : Nat} {q' : Queue K} {w : Option Waiter}
      {ts : List (Thread K)} {f : List (Nat × K)} :
      q.add v now = .ok (q', w) →
      Step (.add v now) ⟨q, ts, f⟩ ⟨q', ts ++ spawnList w, f⟩
  | remove {q : Queue K} {v : K} {q' : Queue K} {b : Bool} {w : Option Waiter}
      {ts : List (Thread K)} {f : List (Nat × K)} :
      q.removeKey v = (q', b, w) →
      Step (.remove v) ⟨q, ts, f⟩ ⟨q', ts ++ spawnList w, f⟩
  | reset {q : Queue K} {v : K} {now : Nat} {q' : Queue K} {b : Bool}
      {w : Option Waiter} {ts : List (Thread K)} {f : List (Nat × K)} :
      q.reset v now = (q', b, w) →
      Step (.reset v now) ⟨q, ts, f⟩ ⟨q', ts ++ spawnList w, f⟩
  | clear {q : Queue K} {ts : List (Thread K)} {f : List (Nat × K)} :
      Step .clear ⟨q, ts, f⟩ ⟨(q.clearQ).1, ts, f⟩
  | flushStart {q : Queue K} {ts : List (Thread K)} {f : List (Nat × K)} :
      Step .flushStart ⟨q, ts, f⟩
        ⟨(q.clearQ).1, ts ++ [.flushing (q.seq.map (fun e => e.v))], f⟩
  | flushCall {q : Queue K} {k : K} {r : List K}
      {ts₁ ts₂ : List (Thread K)} {f : List (Nat × K)} :
      Step (.flushCall k) ⟨q, ts₁ ++ .flushing (k :: r) :: ts₂, f⟩
        ⟨q, ts₁ ++ .flushCalling k r :: ts₂, f⟩
  | flushRet {q : Queue K} {k : K} {r : List K}
      {ts₁ ts₂ : List (Thread K)} {f : List (Nat × K)} :
      Step (.flushRet k) ⟨q, ts₁ ++ .flushCalling k r :: ts₂, f⟩
        ⟨q, ts₁ ++ .flushing r :: ts₂, f⟩
  | flushEnd {q : Queue K} {ts₁ ts₂ : List (Thread K)} {f : List (Nat × K)} :
      Step .flushEnd ⟨q, ts₁ ++ .flushing [] :: ts₂, f⟩ ⟨q, ts₁ ++ ts₂, f⟩
  | wakeStale {q : Queue K} {w : Waiter} {ts₁ ts₂ : List (Thread K)}
      {f : List (Nat × K)} :
      q.wake w.elemId w.time = (q, none, none) →
      Step (.wakeStale w) ⟨q, ts₁ ++ .sleeping w :: ts₂, f⟩ ⟨q, ts₁ ++ ts₂, f⟩
  | wakeFire {q : Queue K} {w : Waiter} {q' : Queue K} {k : K}
      {c : Option Waiter} {ts₁ ts₂ : List (Thread K)} {f : List (Nat × K)} :
      q.wake w.elemId w.time = (q', some k, c) →
      Step (.wakeFire w k) ⟨q, ts₁ ++ .sleeping w :: ts₂, f⟩
        ⟨q', ts₁ ++ .calling k c :: ts₂, f ++ [(w.elemId, k)]⟩
  | cbRet {q : Queue K} {k : K} {c : Option Waiter}
      {ts₁ ts₂ : List (Thread K)} {f : List (Nat × K)} :
      Step (.cbRet k) ⟨q, ts₁ ++ .calling k c :: ts₂, f⟩
        ⟨q, ts₁ ++ spawnList c ++ ts₂, f⟩

/-- Some transition with some label. -/
def StepAny {K : Type} [DecidableEq K] (s s' : Sys K) : Prop :=
  ∃ l, Step l s s'

/-- Reachability in the transition system. -/
def Reaches {K : Type} [DecidableEq K] (s s' : Sys K) : Prop :=
  Relation.ReflTransGen StepAny s s'

/-- Is a thread currently inside a callback invocation? -/
def Thread.inCallback {K : Type} : Thread K → Bool
  | .calling _ _ => true
  | .flushCalling _ _ => true
  | _ => false

/-- Number of callback invocations currently executing. -/
def runningCallbacks {K : Type} (s : Sys K) : Nat :=
  (s.threads.filter Thread.inCallback).length

/-- The keys a `Flush` caller has not yet finished firing (the one being
fired first), for each `Flush` caller in thread order. -/
def flushPendings {K : Type} (ts : List (Thread K)) : List (List K) :=
  ts.filterMap fun th =>
    match th with
    | .flushing l => some l
    | .flushCalling k l => some (k :: l)
    | _ => none

/-! ## The data-model invariant -/

/-- The data-model invariant of the queue: element ids (pointer
identities) are distinct and below the allocator; keys are distinct on
both sides; the index and the sequence are in 1:1 correspondence; the
sequence is sorted non-decreasing by deadline; and the index size (what
`Len` reports) equals the sequence length. -/
structure WF {K : Type} (q : Queue K) : Prop where
  ids_nodup : (q.seq.map Elem.id).Nodup
  keys_nodup : (q.seq.map Elem.v).Nodup
  idx_keys_nodup : (q.index.map Prod.fst).Nodup
  corr : ∀ k i, (k, i) ∈ q.index ↔ ∃ e, e ∈ q.seq ∧ e.v = k ∧ e.id = i
  ids_lt : ∀ e ∈ q.seq, e.id < q.nextId
  sorted : q.seq.Pairwise (fun a b => a.time ≤ b.time)
  len_eq : q.index.length = q.seq.length

/-! ## Lemmas about the association-list and linked-list helpers -/

section Helpers

variable {K : Type} [DecidableEq K]

theorem lookupKey_eq_none_iff (idx : List (K × Nat)) (k : K) :
    lookupKey idx k = none ↔ ∀ i, (k, i) ∉ idx := by
  induction idx with
  | nil => simp [lookupKey]
  | cons p rest ih =>
    by_cases h : p.1 = k
    · simp only [lookupKey, h, if_pos rfl]
      constructor
      · intro hc; cases hc
      · intro hall
        exact absurd (by simp [← h]) (hall p.2)
    · simp only [lookupKey, if_neg h, ih]
      constructor
      · intro hall i hmem
        rcases List.mem_cons.1 hmem with heq | hmem'
        · exact h (congrArg Prod.fst heq.symm)
        · exact hall i hmem'
      · intro hall i hmem
        exact hall i (List.mem_cons_of_mem _ hmem)

theorem mem_of_lookupKey_eq_some {idx : List (K × Nat)} {k : K} {i : Nat}
    (h : lookupKey idx k = some i) : (k, i) ∈ idx := by
  induction idx with
  | nil => simp [lookupKey] at h
  | cons p rest ih =>
    by_cases hp : p.1 = k
    · simp only [lookupKey, if_pos hp] at h
      cases h
      have hpk : (k, p.2) = p := by rw [← hp]
      rw [hpk]
      exact List.mem_cons_self p rest
    · simp only [lookupKey, if_neg hp] at h
      exact List.mem_cons_of_mem _ (ih h)

theorem lookupKey_isSome_of_mem {idx : List (K × Nat)} {k : K} {i : Nat}
    (h : (k, i) ∈ idx) : ∃ j, lookupKey idx k = some j := by
  induction idx with
  | nil => cases h
  | cons p rest ih =>
    by_cases hp : p.1 = k
    · exact ⟨p.2, by simp [lookupKey, hp]⟩
    · rcases List.mem_cons.1 h with heq | hmem
      · exact absurd (congrArg Prod.fst heq.symm) hp
      · rcases ih hmem with ⟨j, hj⟩
        exact ⟨j, by simp [lookupKey, hp, hj]⟩

/-- In an index with no duplicate keys, the id bound to a key is unique. -/
theorem idx_id_unique {idx : List (K × Nat)} {k : K} {i j : Nat}
    (hnd : (idx.map Prod.fst).Nodup) (hi : (k, i) ∈ idx) (hj : (k, j) ∈ idx) :
    i = j := by
  have h := List.inj_on_of_nodup_map hnd hi hj rfl
  exact congrArg Prod.snd h

/-- In a sequence with distinct ids, membership is determined by the id. -/
theorem elem_id_unique {l : List (Elem K)} {e e' : Elem K}
    (hnd : (l.map Elem.id).Nodup) (he : e ∈ l) (he' : e' ∈ l)
    (hid : e.id = e'.id) : e = e' :=
  List.inj_on_of_nodup_map hnd he he' hid

/-- In a sequence with distinct keys, membership is determined by the key. -/
theorem elem_key_unique {l : List (Elem K)} {e e' : Elem K}
    (hnd : (l.map Elem.v).Nodup) (he : e ∈ l) (he' : e' ∈ l)
    (hv : e.v = e'.v) : e = e' :=
  List.inj_on_of_nodup_map hnd he he' hv

theorem eraseKey_sublist (idx : List (K × Nat)) (k : K) :
    List.Sublist (eraseKey idx k) idx := by
  induction idx with
  | nil => simp [eraseKey]
  | cons p rest ih =>
    by_cases hp : p.1 = k
    · simpa [eraseKey, hp] using List.sublist_cons_self p rest
    · simpa [eraseKey, hp] using List.Sublist.cons₂ p ih

theorem eraseById_sublist (l : List (Elem K)) (i : Nat) :
    List.Sublist (eraseById l i) l := by
  induction l with
  | nil => simp [eraseById]
  | cons e rest ih =>
    by_cases he : e.id = i
    · simpa [eraseById, he] using List.sublist_cons_self e rest
    · simpa [eraseById, he] using List.Sublist.cons₂ e ih

/-- Deleting a key from an index with no duplicate keys removes exactly
the entries carrying that key. -/
theorem mem_eraseKey_iff {idx : List (K × Nat)} (hnd : (idx.map Prod.fst).Nodup)
    (v : K) (k : K) (j : Nat) :
    (k, j) ∈ eraseKey idx v ↔ (k, j) ∈ idx ∧ k ≠ v := by
  induction idx with
  | nil => simp [eraseKey]
  | cons p rest ih =>
    simp only [List.map_cons, List.nodup_cons] at hnd
    by_cases hp : p.1 = v
    · simp only [eraseKey, if_pos hp]
      constructor
      · intro hmem
        refine ⟨List.mem_cons_of_mem _ hmem, ?_⟩
        intro hkv
        exact hnd.1 (by
          have : (k, j).1 ∈ rest.map Prod.fst := List.mem_map_of_mem Prod.fst hmem
          simpa [hkv, ← hp] using this)
      · rintro ⟨hmem, hkv⟩
        rcases List.mem_cons.1 hmem with heq | hmem'
        · exact absurd (by rw [← hp]; exact congrArg Prod.fst heq) hkv
        · exact hmem'
    · simp only [eraseKey, if_neg hp]
      constructor
      · intro hmem
        rcases List.mem_cons.1 hmem with heq | hmem'
        · refine ⟨by rw [heq]; exact List.mem_cons_self p rest, ?_⟩
          intro hkv
          exact hp (by rw [← hkv]; exact (congrArg Prod.fst heq).symm)
        · rcases (ih hnd.2).1 hmem' with ⟨hm, hne⟩
          exact ⟨List.mem_cons_of_mem _ hm, hne⟩
      · rintro ⟨hmem, hkv⟩
        rcases List.mem_cons.1 hmem with heq | hmem'
        · rw [heq]; exact List.mem_cons_self p _
        · exact List.mem_cons_of_mem _ ((ih hnd.2).2 ⟨hmem', hkv⟩)

/-- Unlinking an id from a sequence with distinct ids removes exactly the
element carrying that id. -/
theorem mem_eraseById_iff {l : List (Elem K)} (hnd : (l.map Elem.id).Nodup)
    (i : Nat) (e : Elem K) :
    e ∈ eraseById l i ↔ e ∈ l ∧ e.id ≠ i := by
  induction l with
  | nil => simp [eraseById]
  | cons e₀ rest ih =>
    simp only [List.map_cons, List.nodup_cons] at hnd
    by_cases h0 : e₀.id = i
    · simp only [eraseById, if_pos h0]
      constructor
      · intro hmem
        refine ⟨List.mem_cons_of_mem _ hmem, ?_⟩
        intro hei
        exact hnd.1 (by
          have : e.id ∈ rest.map Elem.id := List.mem_map_of_mem Elem.id hmem
          simpa [h0, ← hei] using this)
      · rintro ⟨hmem, hei⟩
        rcases List.mem_cons.1 hmem with heq | hmem'
        · exact absurd (by rw [heq, h0]) hei
        · exact hmem'
    · simp only [eraseById, if_neg h0]
      constructor
      · intro hmem
        rcases List.mem_cons.1 hmem with heq | hmem'
        · exact ⟨by rw [heq]; exact List.mem_cons_self e₀ rest, by rw [heq]; exact h0⟩
        · rcases (ih hnd.2).1 hmem' with ⟨hm, hne⟩
          exact ⟨List.mem_cons_of_mem _ hm, hne⟩
      · rintro ⟨hmem, hei⟩
        rcases List.mem_cons.1 hmem with heq | hmem'
        · rw [heq]; exact List.mem_cons_self e₀ _
        · exact List.mem_cons_of_mem _ ((ih hnd.2).2 ⟨hmem', hei⟩)

theorem length_eraseKey_of_mem {idx : List (K × Nat)} {v : K} {j : Nat}
    (h : (v, j) ∈ idx) : (eraseKey idx v).length + 1 = idx.length := by
  induction idx with
  | nil => cases h
  | cons p rest ih =>
    by_cases hp : p.1 = v
    · simp [eraseKey, hp]
    · rcases List.mem_cons.1 h with heq | hmem
      · exact absurd (congrArg Prod.fst heq.symm) hp
      · simp only [eraseKey, if_neg hp, List.length_cons]
        rw [← ih hmem]

theorem length_eraseById_of_mem {l : List (Elem K)} {e : Elem K}
    (h : e ∈ l) : (eraseById l e.id).length + 1 = l.length := by
  induction l with
  | nil => cases h
  | cons e₀ rest ih =>
    by_cases h0 : e₀.id = e.id
    · simp [eraseById, h0]
    · rcases List.mem_cons.1 h with heq | hmem
      · exact absurd (congrArg Elem.id heq.symm) h0
      · simp only [eraseById, if_neg h0, List.length_cons]
        rw [← ih hmem]

/-- Unlinking an id that is the head's id keeps the rest intact. -/
theorem eraseById_cons_self {e : Elem K} {rest : List (Elem K)} :
    eraseById (e :: rest) e.id = rest := by
  simp [eraseById]

theorem eraseById_cons_of_ne {e : Elem K} {rest : List (Elem K)} {i : Nat}
    (h : e.id ≠ i) : eraseById (e :: rest) i = e :: eraseById rest i := by
  simp [eraseById, h]

theorem elemById_mem {l : List (Elem K)} {i : Nat} {e : Elem K}
    (h : elemById l i = some e) : e ∈ l ∧ e.id = i := by
  induction l with
  | nil => simp [elemById] at h
  | cons e₀ rest ih =>
    by_cases h0 : e₀.id = i
    · simp only [elemById, if_pos h0] at h
      cases h
      exact ⟨List.mem_cons_self _ _, h0⟩
    · simp only [elemById, if_neg h0] at h
      rcases ih h with ⟨hm, hi⟩
      exact ⟨List.mem_cons_of_mem _ hm, hi⟩

theorem elemById_isSome_of_mem {l : List (Elem K)} {e : Elem K}
    (h : e ∈ l) : ∃ e', elemById l e.id = some e' := by
  induction l with
  | nil => cases h
  | cons e₀ rest ih =>
    by_cases h0 : e₀.id = e.id
    · exact ⟨e₀, by simp [elemById, h0]⟩
    · rcases List.mem_cons.1 h with heq | hmem
      · exact absurd (congrArg Elem.id heq.symm) h0
      · rcases ih hmem with ⟨e', he'⟩
        exact ⟨e', by simp [elemById, h0, he']⟩

end Helpers

/-! ## Inversion lemmas: explicit result shapes of the operations -/

section Inversion

variable {K : Type} [DecidableEq K]

theorem add_error {q : Queue K} {v : K} {now i : Nat}
    (hl : lookupKey q.index v = some i) :
    q.add v now = .error .duplicateKey := by
  simp [Queue.add, hl]

theorem add_ok {q : Queue K} {v : K} {now : Nat}
    (hl : lookupKey q.index v = none) :
    q.add v now = .ok
      (⟨q.seq ++ [⟨q.nextId, v, now + q.duration⟩], (v, q.nextId) :: q.index,
        q.nextId + 1, q.duration⟩,
       if q.seq.isEmpty then some ⟨q.nextId, now + q.duration⟩ else none) := by
  cases hq : q.seq with
  | nil => simp [Queue.add, hl, hq, headWaiter]
  | cons e rest => simp [Queue.add, hl, hq, headWaiter]

theorem add_ok_elim {q : Queue K} {v : K} {now : Nat} {q' : Queue K}
    {w : Option Waiter} (h : q.add v now = .ok (q', w)) :
    lookupKey q.index v = none ∧
    q' = ⟨q.seq ++ [⟨q.nextId, v, now + q.duration⟩], (v, q.nextId) :: q.index,
          q.nextId + 1, q.duration⟩ ∧
    w = (if q.seq.isEmpty then some ⟨q.nextId, now + q.duration⟩ else none) := by
  cases hl : lookupKey q.index v with
  | some i => rw [add_error hl] at h; cases h
  | none =>
    rw [add_ok hl] at h
    injection h with h'
    rw [Prod.mk.injEq] at h'
    exact ⟨rfl, h'.1.symm, h'.2.symm⟩

theorem removeKey_none {q : Queue K} {v : K}
    (hl : lookupKey q.index v = none) :
    q.removeKey v = (q, false, none) := by
  simp [Queue.removeKey, hl]

theorem removeKey_some_queue {q : Queue K} {v : K} {i : Nat}
    (hl : lookupKey q.index v = some i) :
    (q.removeKey v).1 =
      ⟨eraseById q.seq i, eraseKey q.index v, q.nextId, q.duration⟩ ∧
    (q.removeKey v).2.1 = true := by
  simp [Queue.removeKey, hl]

theorem removeKey_waiter_nonhead {q : Queue K} {v : K} {i : Nat}
    {e : Elem K} {rest : List (Elem K)}
    (hl : lookupKey q.index v = some i) (hq : q.seq = e :: rest)
    (hne : e.id ≠ i) :
    (q.removeKey v).2.2 = none := by
  simp [Queue.removeKey, hl, hq, hne]

theorem removeKey_waiter_head {q : Queue K} {v : K} {i : Nat}
    {e : Elem K} {rest : List (Elem K)}
    (hl : lookupKey q.index v = some i) (hq : q.seq = e :: rest)
    (hid : e.id = i) :
    (q.removeKey v).2.2 = headWaiter (eraseById q.seq i) := by
  simp [Queue.removeKey, hl, hq, hid]

theorem reset_none {q : Queue K} {v : K} {now : Nat}
    (hl : lookupKey q.index v = none) :
    q.reset v now = (q, false, none) := by
  simp [Queue.reset, hl]

theorem reset_some_queue {q : Queue K} {v : K} (now : Nat) {i : Nat} {el : Elem K}
    (hl : lookupKey q.index v = some i) (he : elemById q.seq i = some el) :
    (q.reset v now).1 =
      ⟨eraseById q.seq i ++ [{el with time := now + q.duration}], q.index,
       q.nextId, q.duration⟩ ∧
    (q.reset v now).2.1 = true := by
  simp [Queue.reset, hl, he]

theorem reset_waiter_nonhead {q : Queue K} {v : K} {now i : Nat} {el : Elem K}
    {e : Elem K} {rest : List (Elem K)}
    (hl : lookupKey q.index v = some i) (he : elemById q.seq i = some el)
    (hq : q.seq = e :: rest) (hne : e.id ≠ i) :
    (q.reset v now).2.2 = none := by
  rw [hq] at he
  simp [Queue.reset, hl, he, hq, hne]

theorem reset_waiter_head {q : Queue K} {v : K} {now i : Nat} {el : Elem K}
    {e : Elem K} {rest : List (Elem K)}
    (hl : lookupKey q.index v = some i) (he : elemById q.seq i = some el)
    (hq : q.seq = e :: rest) (hid : e.id = i) :
    (q.reset v now).2.2 =
      headWaiter (eraseById q.seq i ++ [{el with time := now + q.duration}]) := by
  rw [hq] at he
  simp [Queue.reset, hl, he, hq, hid]

theorem wake_empty {q : Queue K} {elemId t : Nat} (hq : q.seq = []) :
    q.wake elemId t = (q, none, none) := by
  simp [Queue.wake, hq]

theorem wake_stale {q : Queue K} {elemId t : Nat} {e : Elem K}
    {rest : List (Elem K)} (hq : q.seq = e :: rest)
    (hne : ¬(e.id = elemId ∧ e.time = t)) :
    q.wake elemId t = (q, none, none) := by
  simp [Queue.wake, hq, hne]

theorem wake_fire {q : Queue K} {elemId t : Nat} {e : Elem K}
    {rest : List (Elem K)} (hq : q.seq = e :: rest)
    (hid : e.id = elemId) (ht : e.time = t) :
    q.wake elemId t =
      (⟨rest, eraseKey q.index e.v, q.nextId, q.duration⟩, some e.v,
       headWaiter rest) := by
  simp [Queue.wake, hq, hid, ht]

theorem wake_fire_elim {q : Queue K} {elemId t : Nat} {q' : Queue K} {k : K}
    {c : Option Waiter} (h : q.wake elemId t = (q', some k, c)) :
    ∃ e rest, q.seq = e :: rest ∧ e.id = elemId ∧ e.time = t ∧ k = e.v ∧
      q' = ⟨rest, eraseKey q.index e.v, q.nextId, q.duration⟩ ∧
      c = headWaiter rest := by
  cases hq : q.seq with
  | nil => rw [wake_empty hq] at h; simp at h
  | cons e rest =>
    by_cases hc : e.id = elemId ∧ e.time = t
    · rw [wake_fire hq hc.1 hc.2] at h
      rw [Prod.mk.injEq, Prod.mk.injEq] at h
      rcases h with ⟨hq', hk, hcont⟩
      injection hk with hk
      subst hk
      exact ⟨e, rest, rfl, hc.1, hc.2, rfl, hq'.symm, hcont.symm⟩
    · rw [wake_stale hq hc] at h
      simp at h

end Inversion

/-! ## Preservation of the data-model invariant -/

section Preservation

variable {K : Type} [DecidableEq K]

theorem WF.elem_of_lookup {q : Queue K} {v : K} {i : Nat} (hwf : WF q)
    (hl : lookupKey q.index v = some i) :
    ∃ e, e ∈ q.seq ∧ e.v = v ∧ e.id = i :=
  (hwf.corr v i).1 (mem_of_lookupKey_eq_some hl)

theorem WF.key_absent_of_lookup_none {q : Queue K} {v : K} (hwf : WF q)
    (hl : lookupKey q.index v = none) :
    ∀ e ∈ q.seq, e.v ≠ v := by
  intro e he hev
  exact (lookupKey_eq_none_iff q.index v).1 hl e.id
    ((hwf.corr v e.id).2 ⟨e, he, hev, rfl⟩)

theorem WF.add_preserved {q : Queue K} {v : K} {now : Nat} {q' : Queue K}
    {w : Option Waiter} (hwf : WF q)
    (hmono : ∀ e ∈ q.seq, e.time ≤ now + q.duration)
    (h : q.add v now = .ok (q', w)) : WF q' := by
  obtain ⟨hl, hq', -⟩ := add_ok_elim h
  subst hq'
  have hvnot : ∀ e ∈ q.seq, e.v ≠ v := hwf.key_absent_of_lookup_none hl
  refine ⟨?_, ?_, ?_, ?_, ?_, ?_, ?_⟩
  · dsimp only
    rw [List.map_append, List.nodup_append]
    refine ⟨hwf.ids_nodup, by simp, ?_⟩
    intro a ha hb
    simp only [List.map_cons, List.map_nil, List.mem_singleton] at hb
    subst hb
    obtain ⟨e, he, hei⟩ := List.mem_map.1 ha
    exact absurd (hei ▸ hwf.ids_lt e he) (lt_irrefl _)
  · dsimp only
    rw [List.map_append, List.nodup_append]
    refine ⟨hwf.keys_nodup, by simp, ?_⟩
    intro a ha hb
    simp only [List.map_cons, List.map_nil, List.mem_singleton] at hb
    subst hb
    obtain ⟨e, he, hev⟩ := List.mem_map.1 ha
    exact hvnot e he hev
  · dsimp only
    rw [List.map_cons, List.nodup_cons]
    refine ⟨?_, hwf.idx_keys_nodup⟩
    intro hv
    obtain ⟨p, hp, hfst⟩ := List.mem_map.1 hv
    have hp1 : p.1 = v := hfst
    have hpv : (v, p.2) = p := by rw [← hp1]
    exact (lookupKey_eq_none_iff q.index v).1 hl p.2 (hpv ▸ hp)
  · intro k j
    dsimp only
    constructor
    · intro hmem
      rcases List.mem_cons.1 hmem with heq | hmem'
      · rw [Prod.mk.injEq] at heq
        refine ⟨⟨q.nextId, v, now + q.duration⟩,
          List.mem_append_right _ (List.mem_singleton.2 rfl), heq.1.symm, heq.2.symm⟩
      · obtain ⟨e, he, hev, hei⟩ := (hwf.corr k j).1 hmem'
        exact ⟨e, List.mem_append_left _ he, hev, hei⟩
    · rintro ⟨e, he, hev, hei⟩
      rcases List.mem_append.1 he with he' | he'
      · exact List.mem_cons_of_mem _ ((hwf.corr k j).2 ⟨e, he', hev, hei⟩)
      · rw [List.mem_singleton] at he'
        subst he'
        rw [← hev, ← hei]
        exact List.mem_cons_self _ _
  · intro e he
    dsimp only at he ⊢
    rcases List.mem_append.1 he with he' | he'
    · exact Nat.lt_succ_of_lt (hwf.ids_lt e he')
    · rw [List.mem_singleton] at he'
      subst he'
      exact Nat.lt_succ_self _
  · dsimp only
    rw [List.pairwise_append]
    refine ⟨hwf.sorted, List.pairwise_singleton _ _, ?_⟩
    intro a ha b hb
    rw [List.mem_singleton] at hb
    subst hb
    exact hmono a ha
  · dsimp only
    rw [List.length_append, List.length_cons]
    simp [hwf.len_eq]

theorem WF.removeKey_preserved {q : Queue K} {v : K} {q' : Queue K} {b : Bool}
    {w : Option Waiter} (hwf : WF q)
    (h : q.removeKey v = (q', b, w)) : WF q' := by
  cases hl : lookupKey q.index v with
  | none =>
    rw [removeKey_none hl] at h
    rw [Prod.mk.injEq] at h
    rw [← h.1]
    exact hwf
  | some i =>
    obtain ⟨e₀, he₀, hv₀, hi₀⟩ := hwf.elem_of_lookup hl
    have h1 := (removeKey_some_queue hl).1
    rw [h] at h1
    dsimp only at h1
    rw [h1]
    refine ⟨?_, ?_, ?_, ?_, ?_, ?_, ?_⟩
    · exact List.Nodup.sublist (List.Sublist.map _ (eraseById_sublist _ _)) hwf.ids_nodup
    · exact List.Nodup.sublist (List.Sublist.map _ (eraseById_sublist _ _)) hwf.keys_nodup
    · exact List.Nodup.sublist (List.Sublist.map _ (eraseKey_sublist _ _)) hwf.idx_keys_nodup
    · intro k j
      dsimp only
      rw [mem_eraseKey_iff hwf.idx_keys_nodup]
      constructor
      · rintro ⟨hmem, hkv⟩
        obtain ⟨e, he, hev, hei⟩ := (hwf.corr k j).1 hmem
        refine ⟨e, (mem_eraseById_iff hwf.ids_nodup i e).2 ⟨he, ?_⟩, hev, hei⟩
        intro hei2
        have he0 : e = e₀ := elem_id_unique hwf.ids_nodup he he₀ (by rw [hei2, hi₀])
        exact hkv (by rw [← hev, he0, hv₀])
      · rintro ⟨e, he, hev, hei⟩
        rw [mem_eraseById_iff hwf.ids_nodup] at he
        refine ⟨(hwf.corr k j).2 ⟨e, he.1, hev, hei⟩, ?_⟩
        intro hkv
        have he0 : e = e₀ := elem_key_unique hwf.keys_nodup he.1 he₀ (by rw [hev, hkv, hv₀])
        exact he.2 (by rw [he0, hi₀])
    · intro e he
      exact hwf.ids_lt e ((eraseById_sublist q.seq i).subset he)
    · exact List.Pairwise.sublist (eraseById_sublist _ _) hwf.sorted
    · dsimp only
      have hIdx : (eraseKey q.index v).length + 1 = q.index.length :=
        length_eraseKey_of_mem (mem_of_lookupKey_eq_some hl)
      have hSeq : (eraseById q.seq e₀.id).length + 1 = q.seq.length :=
        length_eraseById_of_mem he₀
      rw [hi₀] at hSeq
      have hlen := hwf.len_eq
      omega

theorem WF.reset_preserved {q : Queue K} {v : K} {now : Nat} {q' : Queue K}
    {b : Bool} {w : Option Waiter} (hwf : WF q)
    (hmono : ∀ e ∈ q.seq, e.time ≤ now + q.duration)
    (h : q.reset v now = (q', b, w)) : WF q' := by
  cases hl : lookupKey q.index v with
  | none =>
    rw [reset_none hl] at h
    rw [Prod.mk.injEq] at h
    rw [← h.1]
    exact hwf
  | some i =>
    obtain ⟨e₀, he₀, hv₀, hi₀⟩ := hwf.elem_of_lookup hl
    cases he : elemById q.seq i with
    | none =>
      have hr : q.reset v now = (q, false, none) := by
        simp [Queue.reset, hl, he]
      rw [hr] at h
      rw [Prod.mk.injEq] at h
      rw [← h.1]
      exact hwf
    | some el =>
      obtain ⟨hel, heli⟩ := elemById_mem he
      have helv : el.v = v := by
        have : e₀ = el := elem_id_unique hwf.ids_nodup he₀ hel (by rw [hi₀, heli])
        rw [← this, hv₀]
      have h1 := (reset_some_queue now hl he).1
      rw [h] at h1
      dsimp only at h1
      rw [h1]
      have herase : ∀ e, e ∈ eraseById q.seq i ↔ e ∈ q.seq ∧ e.id ≠ i :=
        mem_eraseById_iff hwf.ids_nodup i
      refine ⟨?_, ?_, ?_, ?_, ?_, ?_, ?_⟩
      · dsimp only
        rw [List.map_append, List.nodup_append]
        refine ⟨List.Nodup.sublist (List.Sublist.map _ (eraseById_sublist _ _)) hwf.ids_nodup,
          by simp, ?_⟩
        intro a ha hb
        simp only [List.map_cons, List.map_nil, List.mem_singleton] at hb
        subst hb
        obtain ⟨e, hee, hei⟩ := List.mem_map.1 ha
        exact ((herase e).1 hee).2 (by rw [hei]; exact heli)
      · dsimp only
        rw [List.map_append, List.nodup_append]
        refine ⟨List.Nodup.sublist (List.Sublist.map _ (eraseById_sublist _ _)) hwf.keys_nodup,
          by simp, ?_⟩
        intro a ha hb
        simp only [List.map_cons, List.map_nil, List.mem_singleton] at hb
        subst hb
        obtain ⟨e, hee, hev⟩ := List.mem_map.1 ha
        have heel : e = el := elem_key_unique hwf.keys_nodup ((herase e).1 hee).1 hel hev
        exact ((herase e).1 hee).2 (by rw [heel, heli])
      · exact hwf.idx_keys_nodup
      · intro k j
        dsimp only
        constructor
        · intro hmem
          obtain ⟨e, hee, hev, hei⟩ := (hwf.corr k j).1 hmem
          by_cases heqi : e.id = i
          · have heel : e = el := elem_id_unique hwf.ids_nodup hee hel (by rw [heqi, heli])
            refine ⟨{el with time := now + q.duration},
              List.mem_append_right _ (List.mem_singleton.2 rfl), ?_, ?_⟩
            · dsimp only; rw [← hev, heel]
            · dsimp only; rw [← hei, heel]
          · exact ⟨e, List.mem_append_left _ ((herase e).2 ⟨hee, heqi⟩), hev, hei⟩
        · rintro ⟨e, hee, hev, hei⟩
          rcases List.mem_append.1 hee with he' | he'
          · exact (hwf.corr k j).2 ⟨e, ((herase e).1 he').1, hev, hei⟩
          · rw [List.mem_singleton] at he'
            subst he'
            dsimp only at hev hei
            rw [← hev, ← hei, helv, heli]
            exact mem_of_lookupKey_eq_some hl
      · intro e hee
        dsimp only at hee
        rcases List.mem_append.1 hee with he' | he'
        · exact hwf.ids_lt e ((eraseById_sublist q.seq i).subset he')
        · rw [List.mem_singleton] at he'
          subst he'
          exact hwf.ids_lt el hel
      · dsimp only
        rw [List.pairwise_append]
        refine ⟨List.Pairwise.sublist (eraseById_sublist _ _) hwf.sorted,
          List.pairwise_singleton _ _, ?_⟩
        intro a ha b hb
        rw [List.mem_singleton] at hb
        subst hb
        exact hmono a ((eraseById_sublist q.seq i).subset ha)
      · dsimp only
        rw [List.length_append, List.length_cons]
        have hSeq : (eraseById q.seq el.id).length + 1 = q.seq.length :=
          length_eraseById_of_mem hel
        rw [heli] at hSeq
        have hlen := hwf.len_eq
        simp only [List.length_nil]
        omega

theorem WF.wake_preserved {q : Queue K} {elemId t : Nat} {q' : Queue K}
    {fv : Option K} {c : Option Waiter} (hwf : WF q)
    (h : q.wake elemId t = (q', fv, c)) : WF q' := by
  cases hq : q.seq with
  | nil =>
    rw [wake_empty hq] at h
    rw [Prod.mk.injEq] at h
    rw [← h.1]
    exact hwf
  | cons e rest =>
    by_cases hc : e.id = elemId ∧ e.time = t
    · rw [wake_fire hq hc.1 hc.2] at h
      rw [Prod.mk.injEq] at h
      rw [← h.1]
      have hids := hwf.ids_nodup
      have hkeys := hwf.keys_nodup
      have hsorted := hwf.sorted
      rw [hq, List.map_cons, List.nodup_cons] at hids hkeys
      rw [hq, List.pairwise_cons] at hsorted
      refine ⟨?_, ?_, ?_, ?_, ?_, ?_, ?_⟩
      · exact hids.2
      · exact hkeys.2
      · exact List.Nodup.sublist (List.Sublist.map _ (eraseKey_sublist _ _)) hwf.idx_keys_nodup
      · intro k j
        show (k, j) ∈ eraseKey q.index e.v ↔ ∃ e', e' ∈ rest ∧ e'.v = k ∧ e'.id = j
        rw [mem_eraseKey_iff hwf.idx_keys_nodup]
        constructor
        · rintro ⟨hmem, hkv⟩
          obtain ⟨e', he', hev, hei⟩ := (hwf.corr k j).1 hmem
          rw [hq] at he'
          rcases List.mem_cons.1 he' with heq | hmem'
          · exact absurd (by rw [← hev, heq]) hkv
          · exact ⟨e', hmem', hev, hei⟩
        · rintro ⟨e', he', hev, hei⟩
          have hseq : e' ∈ q.seq := by rw [hq]; exact List.mem_cons_of_mem _ he'
          refine ⟨(hwf.corr k j).2 ⟨e', hseq, hev, hei⟩, ?_⟩
          intro hkv
          refine hkeys.1 ?_
          rw [← hkv, ← hev]
          exact List.mem_map_of_mem Elem.v he'
      · intro e' he'
        exact hwf.ids_lt e' (by rw [hq]; exact List.mem_cons_of_mem _ he')
      · exact hsorted.2
      · show (eraseKey q.index e.v).length = rest.length
        have hmem : (e.v, e.id) ∈ q.index :=
          (hwf.corr e.v e.id).2 ⟨e, by rw [hq]; exact List.mem_cons_self _ _, rfl, rfl⟩
        have hIdx := length_eraseKey_of_mem hmem
        have hlen := hwf.len_eq
        rw [hq, List.length_cons] at hlen
        omega
    · rw [wake_stale hq hc] at h
      rw [Prod.mk.injEq] at h
      rw [← h.1]
      exact hwf

theorem WF.clearQ_preserved (q : Queue K) : WF ((q.clearQ).1) := by
  refine ⟨?_, ?_, ?_, ?_, ?_, ?_, ?_⟩ <;> simp [Queue.clearQ]

end Preservation

/-! ## The system-level invariant for the temporal claims -/

section SysInvariant

variable {K : Type} [DecidableEq K]

theorem removeKey_queue_cases {q : Queue K} {v : K} {q' : Queue K} {b : Bool}
    {w : Option Waiter} (h : q.removeKey v = (q', b, w)) :
    q' = q ∨
    ∃ i, q' = ⟨eraseById q.seq i, eraseKey q.index v, q.nextId, q.duration⟩ := by
  cases hl : lookupKey q.index v with
  | none =>
    rw [removeKey_none hl] at h
    rw [Prod.mk.injEq] at h
    exact Or.inl h.1.symm
  | some i =>
    have h1 := (removeKey_some_queue hl).1
    rw [h] at h1
    exact Or.inr ⟨i, h1⟩

theorem reset_queue_cases {q : Queue K} {v : K} {now : Nat} {q' : Queue K}
    {b : Bool} {w : Option Waiter} (h : q.reset v now = (q', b, w)) :
    q' = q ∨
    ∃ el, el ∈ q.seq ∧
      q' = ⟨eraseById q.seq el.id ++ [{el with time := now + q.duration}],
            q.index, q.nextId, q.duration⟩ := by
  cases hl : lookupKey q.index v with
  | none =>
    rw [reset_none hl] at h
    rw [Prod.mk.injEq] at h
    exact Or.inl h.1.symm
  | some i =>
    cases he : elemById q.seq i with
    | none =>
      have hr : q.reset v now = (q, false, none) := by
        simp [Queue.reset, hl, he]
      rw [hr] at h
      rw [Prod.mk.injEq] at h
      exact Or.inl h.1.symm
    | some el =>
      obtain ⟨hel, heli⟩ := elemById_mem he
      have h1 := (reset_some_queue now hl he).1
      rw [h] at h1
      rw [← heli] at h1
      exact Or.inr ⟨el, hel, h1⟩

/-- The invariant on whole system configurations used by the temporal
claims: ids in the queue are distinct allocated pointer identities; the
ghost log of waiter firings never repeats an element id, only mentions
allocated ids, and never mentions an id still linked in the queue. -/
structure SysInv {K : Type} (s : Sys K) : Prop where
  ids_nodup : (s.q.seq.map Elem.id).Nodup
  ids_lt : ∀ e ∈ s.q.seq, e.id < s.q.nextId
  fired_nodup : (s.fired.map Prod.fst).Nodup
  fired_lt : ∀ p ∈ s.fired, p.1 < s.q.nextId
  fired_out : ∀ p ∈ s.fired, p.1 ∉ s.q.seq.map Elem.id

theorem SysInv.init {q : Queue K} (h1 : (q.seq.map Elem.id).Nodup)
    (h2 : ∀ e ∈ q.seq, e.id < q.nextId) : SysInv (Sys.init q) :=
  ⟨h1, h2, by simp [Sys.init], by simp [Sys.init], by simp [Sys.init]⟩

theorem SysInv.step_preserved {l : Lbl K} {s s' : Sys K} (hinv : SysInv s)
    (h : Step l s s') : SysInv s' := by
  cases h with
  | add h1 =>
    obtain ⟨-, hq', -⟩ := add_ok_elim h1
    subst hq'
    obtain ⟨hids, hlt, hfn, hfl, hfo⟩ := hinv
    refine ⟨?_, ?_, hfn, ?_, ?_⟩
    · show ((_ ++ [_]).map Elem.id).Nodup
      rw [List.map_append, List.nodup_append]
      refine ⟨hids, by simp, ?_⟩
      intro a ha hb
      simp only [List.map_cons, List.map_nil, List.mem_singleton] at hb
      subst hb
      obtain ⟨e, he, hei⟩ := List.mem_map.1 ha
      exact absurd (hei ▸ hlt e he) (lt_irrefl _)
    · intro e he
      rcases List.mem_append.1 he with he' | he'
      · exact Nat.lt_succ_of_lt (hlt e he')
      · rw [List.mem_singleton] at he'
        subst he'
        exact Nat.lt_succ_self _
    · intro p hp
      exact Nat.lt_succ_of_lt (hfl p hp)
    · intro p hp hmem
      rw [List.map_append] at hmem
      rcases List.mem_append.1 hmem with hm | hm
      · exact hfo p hp hm
      · simp only [List.map_cons, List.map_nil, List.mem_singleton] at hm
        exact absurd (hm ▸ hfl p hp) (lt_irrefl _)
  | @remove q v q' b w ts f h1 =>
    obtain ⟨hids, hlt, hfn, hfl, hfo⟩ := hinv
    rcases removeKey_queue_cases h1 with hq' | ⟨i, hq'⟩
    · subst hq'; exact ⟨hids, hlt, hfn, hfl, hfo⟩
    · subst hq'
      have hsub := List.Sublist.map Elem.id (eraseById_sublist q.seq i)
      refine ⟨List.Nodup.sublist hsub hids, ?_, hfn, hfl, ?_⟩
      · intro e he
        exact hlt e ((eraseById_sublist _ _).subset he)
      · intro p hp hm
        exact hfo p hp (hsub.subset hm)
  | reset h1 =>
    obtain ⟨hids, hlt, hfn, hfl, hfo⟩ := hinv
    rcases reset_queue_cases h1 with hq' | ⟨el, hel, hq'⟩
    · subst hq'; exact ⟨hids, hlt, hfn, hfl, hfo⟩
    · subst hq'
      have herase := mem_eraseById_iff (K := K) hids el.id
      refine ⟨?_, ?_, hfn, hfl, ?_⟩
      · show ((_ ++ [_]).map Elem.id).Nodup
        rw [List.map_append, List.nodup_append]
        refine ⟨List.Nodup.sublist (List.Sublist.map _ (eraseById_sublist _ _)) hids,
          by simp, ?_⟩
        intro a ha hb
        simp only [List.map_cons, List.map_nil, List.mem_singleton] at hb
        subst hb
        obtain ⟨e, hee, hei⟩ := List.mem_map.1 ha
        exact ((herase e).1 hee).2 (by rw [hei])
      · intro e he
        rcases List.mem_append.1 he with he' | he'
        · exact hlt e ((eraseById_sublist _ _).subset he')
        · rw [List.mem_singleton] at he'
          subst he'
          exact hlt el hel
      · intro p hp hm
        rw [List.map_append] at hm
        rcases List.mem_append.1 hm with hm' | hm'
        · exact hfo p hp ((List.Sublist.map Elem.id (eraseById_sublist _ _)).subset hm')
        · simp only [List.map_cons, List.map_nil, List.mem_singleton] at hm'
          exact hfo p hp (by rw [hm']; exact List.mem_map_of_mem Elem.id hel)
  | clear =>
    obtain ⟨hids, hlt, hfn, hfl, hfo⟩ := hinv
    exact ⟨by simp [Queue.clearQ], by simp [Queue.clearQ], hfn,
      fun p hp => hfl p hp, by simp [Queue.clearQ]⟩
  | flushStart =>
    obtain ⟨hids, hlt, hfn, hfl, hfo⟩ := hinv
    exact ⟨by simp [Queue.clearQ], by simp [Queue.clearQ], hfn,
      fun p hp => hfl p hp, by simp [Queue.clearQ]⟩
  | flushCall => exact ⟨hinv.ids_nodup, hinv.ids_lt, hinv.fired_nodup, hinv.fired_lt, hinv.fired_out⟩
  | flushRet => exact ⟨hinv.ids_nodup, hinv.ids_lt, hinv.fired_nodup, hinv.fired_lt, hinv.fired_out⟩
  | flushEnd => exact ⟨hinv.ids_nodup, hinv.ids_lt, hinv.fired_nodup, hinv.fired_lt, hinv.fired_out⟩
  | cbRet => exact ⟨hinv.ids_nodup, hinv.ids_lt, hinv.fired_nodup, hinv.fired_lt, hinv.fired_out⟩
  | wakeStale h1 =>
    exact ⟨hinv.ids_nodup, hinv.ids_lt, hinv.fired_nodup, hinv.fired_lt, hinv.fired_out⟩
  | @wakeFire q w q' k c ts₁ ts₂ f h1 =>
    obtain ⟨e, rest, hq, hid, ht, hk, hq', hc⟩ := wake_fire_elim h1
    subst hq'
    obtain ⟨hids, hlt, hfn, hfl, hfo⟩ := hinv
    have hhead : e.id ∈ List.map Elem.id q.seq := by
      rw [hq]; exact List.mem_map_of_mem Elem.id (List.mem_cons_self e rest)
    have hids' := hids
    rw [hq, List.map_cons, List.nodup_cons] at hids'
    refine ⟨hids'.2, ?_, ?_, ?_, ?_⟩
    · intro e' he'
      exact hlt e' (by rw [hq]; exact List.mem_cons_of_mem _ he')
    · show ((_ ++ [(_, _)]).map Prod.fst).Nodup
      rw [List.map_append, List.nodup_append]
      refine ⟨hfn, by simp, ?_⟩
      intro a ha hb
      simp only [List.map_cons, List.map_nil, List.mem_singleton] at hb
      subst hb
      obtain ⟨p, hp, hfst⟩ := List.mem_map.1 ha
      exact hfo p hp (by rw [hfst, ← hid]; exact hhead)
    · intro p hp
      rcases List.mem_append.1 hp with hp' | hp'
      · exact hfl p hp'
      · rw [List.mem_singleton] at hp'
        subst hp'
        exact hid ▸ hlt e (by rw [hq]; exact List.mem_cons_self e rest)
    · intro p hp hm
      rcases List.mem_append.1 hp with hp' | hp'
      · exact hfo p hp' (by rw [hq, List.map_cons]; exact List.mem_cons_of_mem _ hm)
      · rw [List.mem_singleton] at hp'
        subst hp'
        exact hids'.1 (hid ▸ hm)

theorem SysInv.reaches_preserved {s s' : Sys K} (hinv : SysInv s) (h : Reaches s s') :
    SysInv s' := by
  induction h with
  | refl => exact hinv
  | tail hab hbc ih =>
    obtain ⟨l, hl⟩ := hbc
    exact ih.step_preserved hl

/-- An element identity that has been allocated but is no longer linked
in the queue.  Fresh allocation makes such an identity unable to ever
re-enter the queue, hence unable to ever be fired (again). -/
def Gone {K : Type} (i : Nat) (s : Sys K) : Prop :=
  i < s.q.nextId ∧ i ∉ s.q.seq.map Elem.id

theorem Gone.step_mono {i : Nat} {l : Lbl K} {s s' : Sys K} (hg : Gone i s)
    (h : Step l s s') :
    Gone i s' ∧ ∀ k, (i, k) ∈ s'.fired → (i, k) ∈ s.fired := by
  obtain ⟨hlt, hout⟩ := hg
  cases h with
  | @add q v now q' w ts f h1 =>
    obtain ⟨-, hq', -⟩ := add_ok_elim h1
    subst hq'
    refine ⟨⟨Nat.lt_succ_of_lt hlt, ?_⟩, fun k hk => hk⟩
    intro hm
    rw [List.map_append] at hm
    rcases List.mem_append.1 hm with hm' | hm'
    · exact hout hm'
    · simp only [List.map_cons, List.map_nil, List.mem_singleton] at hm'
      exact absurd (hm' ▸ hlt) (lt_irrefl _)
  | @remove q v q' b w ts f h1 =>
    rcases removeKey_queue_cases h1 with hq' | ⟨j, hq'⟩
    · subst hq'; exact ⟨⟨hlt, hout⟩, fun k hk => hk⟩
    · subst hq'
      refine ⟨⟨hlt, ?_⟩, fun k hk => hk⟩
      intro hm
      exact hout ((List.Sublist.map Elem.id (eraseById_sublist q.seq j)).subset hm)
  | @reset q v now q' b w ts f h1 =>
    rcases reset_queue_cases h1 with hq' | ⟨el, hel, hq'⟩
    · subst hq'; exact ⟨⟨hlt, hout⟩, fun k hk => hk⟩
    · subst hq'
      refine ⟨⟨hlt, ?_⟩, fun k hk => hk⟩
      intro hm
      rw [List.map_append] at hm
      rcases List.mem_append.1 hm with hm' | hm'
      · exact hout ((List.Sublist.map Elem.id (eraseById_sublist q.seq el.id)).subset hm')
      · simp only [List.map_cons, List.map_nil, List.mem_singleton] at hm'
        exact hout (hm' ▸ List.mem_map_of_mem Elem.id hel)
  | clear => exact ⟨⟨hlt, by simp [Queue.clearQ]⟩, fun k hk => hk⟩
  | flushStart => exact ⟨⟨hlt, by simp [Queue.clearQ]⟩, fun k hk => hk⟩
  | flushCall => exact ⟨⟨hlt, hout⟩, fun k hk => hk⟩
  | flushRet => exact ⟨⟨hlt, hout⟩, fun k hk => hk⟩
  | flushEnd => exact ⟨⟨hlt, hout⟩, fun k hk => hk⟩
  | cbRet => exact ⟨⟨hlt, hout⟩, fun k hk => hk⟩
  | wakeStale h1 => exact ⟨⟨hlt, hout⟩, fun k hk => hk⟩
  | @wakeFire q w q' k c ts₁ ts₂ f h1 =>
    obtain ⟨e, rest, hq, hid, ht, hk, hq', hc⟩ := wake_fire_elim h1
    subst hq'
    have hhead : e.id ∈ List.map Elem.id q.seq := by
      rw [hq]; exact List.mem_map_of_mem Elem.id (List.mem_cons_self e rest)
    refine ⟨⟨hlt, ?_⟩, ?_⟩
    · intro hm
      exact hout (by rw [hq, List.map_cons]; exact List.mem_cons_of_mem _ hm)
    · intro k' hk'
      rcases List.mem_append.1 hk' with hk'' | hk''
      · exact hk''
      · rw [List.mem_singleton, Prod.mk.injEq] at hk''
        exact absurd (hk''.1 ▸ (hid ▸ hhead)) hout

theorem Gone.reaches_mono {i : Nat} {s s' : Sys K} (hg : Gone i s)
    (h : Reaches s s') :
    Gone i s' ∧ ∀ k, (i, k) ∈ s'.fired → (i, k) ∈ s.fired := by
  induction h with
  | refl => exact ⟨hg, fun k hk => hk⟩
  | tail hab hbc ih =>
    obtain ⟨l, hl⟩ := hbc
    obtain ⟨hgb, hfb⟩ := ih
    obtain ⟨hgc, hfc⟩ := hgb.step_mono hl
    exact ⟨hgc, fun k hk => hfb k (hfc k hk)⟩

end SysInvariant

/-! ## The Clear copy loop -/

section CopyLoop

variable {K : Type}

theorem take_succ_set (x : K) :
    ∀ (arr : List K) (i : Nat), i < arr.length →
      (arr.set i x).take (i + 1) = arr.take i ++ [x] := by
  intro arr
  induction arr with
  | nil => intro i h; simp at h
  | cons a tl ih =>
    intro i h
    cases i with
    | zero => simp
    | succ j =>
      rw [List.length_cons, Nat.succ_lt_succ_iff] at h
      simp only [List.set_cons_succ, List.take_succ_cons, List.cons_append]
      rw [ih j h]

theorem fillLoop_eq :
    ∀ (l : List (Elem K)) (i : Nat) (arr : List (Option K)),
      arr.length = i + l.length →
      fillLoop l i arr = some (arr.take i ++ l.map (fun e => some e.v)) := by
  intro l
  induction l with
  | nil =>
    intro i arr h
    rw [List.length_nil, Nat.add_zero] at h
    simp [fillLoop, List.take_of_length_le (le_of_eq h)]
  | cons e rest ih =>
    intro i arr h
    have hi : i < arr.length := by
      rw [h, List.length_cons]
      omega
    rw [fillLoop, if_pos hi]
    rw [ih (i + 1) (arr.set i (some e.v)) (by rw [List.length_set, h, List.length_cons]; omega)]
    rw [take_succ_set _ arr i hi]
    simp [List.append_assoc]

end CopyLoop

/-! ## Concrete states used by the witnesses -/

/-- A concrete two-element queue: key 1 added at time 0, key 2 added at
time 1, duration 5. -/
def qAB : Queue Nat := ⟨[⟨0, 1, 5⟩, ⟨1, 2, 6⟩], [(2, 1), (1, 0)], 2, 5⟩

theorem wf_qAB : WF qAB := by
  refine ⟨by decide, by decide, by decide, ?_, by decide, by decide, by decide⟩
  intro k i
  constructor
  · intro h
    rcases List.mem_cons.1 h with h1 | h
    · rw [Prod.mk.injEq] at h1
      exact ⟨⟨1, 2, 6⟩, by decide, h1.1.symm, h1.2.symm⟩
    · rcases List.mem_cons.1 h with h1 | h
      · rw [Prod.mk.injEq] at h1
        exact ⟨⟨0, 1, 5⟩, by decide, h1.1.symm, h1.2.symm⟩
      · cases h
  · rintro ⟨e, he, hv, hi⟩
    have he' : e = ⟨0, 1, 5⟩ ∨ e = ⟨1, 2, 6⟩ := by
      rcases List.mem_cons.1 he with h1 | h
      · exact Or.inl h1
      · rcases List.mem_cons.1 h with h1 | h
        · exact Or.inr h1
        · cases h
    rcases he' with h1 | h1 <;> · subst h1; rw [← hv, ← hi]; decide

/-! ## Claim theorems -/

/-- C3: for every queue and every key already present, `Add` fails with
the DuplicateKey contract violation and yields no new state (the
source's panic fires before any mutation, so nothing is inserted or
indexed and no waiter is started); for a key not present, `Add` computes
`deadline = now + duration`, inserts at the tail and indexes the key
(spawning a waiter exactly when the queue was empty before). -/
theorem add_duplicate_and_fresh {K : Type} [DecidableEq K] (q : Queue K)
    (v : K) (now : Nat) :
    (∀ e, WF q → e ∈ q.seq → e.v = v → q.add v now = .error .duplicateKey) ∧
    (lookupKey q.index v = none →
      q.add v now = .ok
        (⟨q.seq ++ [⟨q.nextId, v, now + q.duration⟩], (v, q.nextId) :: q.index,
          q.nextId + 1, q.duration⟩,
         if q.seq.isEmpty then some ⟨q.nextId, now + q.duration⟩ else none)) := by
  constructor
  · intro e hwf he hev
    obtain ⟨j, hj⟩ := lookupKey_isSome_of_mem ((hwf.corr v e.id).2 ⟨e, he, hev, rfl⟩)
    exact add_error hj
  · intro hl
    exact add_ok hl

theorem add_duplicate_and_fresh_witness :
    qAB.add 1 7 = .error .duplicateKey ∧
    (Queue.new Nat 5).add 1 0 =
      .ok (⟨[⟨0, 1, 5⟩], [(1, 0)], 1, 5⟩, some ⟨0, 5⟩) := by
  constructor
  · exact (add_duplicate_and_fresh qAB 1 7).1 ⟨0, 1, 5⟩ wf_qAB (by decide) rfl
  · exact (add_duplicate_and_fresh (Queue.new Nat 5) 1 0).2 rfl

/-- C10: the detached chain's length always equals the count returned by
the internal `clear` (the index size at the detach instant), so `Clear`'s
copy loop fills exactly that many slots of the preallocated slice and
never indexes out of bounds (it yields the filled slice, never the
out-of-bounds marker). -/
theorem clear_copy_in_bounds {K : Type} [DecidableEq K] (q : Queue K)
    (hwf : WF q) :
    (q.clearQ).2.1.length = (q.clearQ).2.2 ∧
    fillLoop (q.clearQ).2.1 0 (List.replicate (q.clearQ).2.2 (none : Option K)) =
      some ((q.clearQ).2.1.map (fun e => some e.v)) := by
  constructor
  · exact hwf.len_eq.symm
  · have h := fillLoop_eq (q.clearQ).2.1 0
      (List.replicate (q.clearQ).2.2 (none : Option K))
      (by rw [List.length_replicate]
          show q.index.length = 0 + q.seq.length
          rw [Nat.zero_add]; exact hwf.len_eq)
    rw [h]
    simp

theorem clear_copy_in_bounds_witness :
    (qAB.clearQ).2.1.length = (qAB.clearQ).2.2 ∧
    fillLoop (qAB.clearQ).2.1 0
        (List.replicate (qAB.clearQ).2.2 (none : Option Nat)) =
      some [some 1, some 2] :=
  clear_copy_in_bounds qAB wf_qAB

/-- C5: `Clear` returns exactly the items that were present, in their
prior sequence order, leaves the queue empty with `Len` zero, and fires
no callbacks: the `clear` transition changes neither the running threads
nor the fired log and spawns nothing.  On an empty queue it succeeds,
returning the empty slice. -/
theorem clear_drains_without_firing {K : Type} [DecidableEq K] :
    (∀ q : Queue K, WF q →
      (q.clearOp).2 = some (q.seq.map (fun e => some e.v)) ∧
      (q.clearOp).1.seq = [] ∧ (q.clearOp).1.index = [] ∧
      (q.clearOp).1.len = 0) ∧
    (∀ q : Queue K, q.seq = [] → q.index = [] → (q.clearOp).2 = some []) ∧
    (∀ s s' : Sys K, Step .clear s s' →
      s'.threads = s.threads ∧ s'.fired = s.fired) := by
  refine ⟨?_, ?_, ?_⟩
  · intro q hwf
    refine ⟨?_, rfl, rfl, rfl⟩
    show fillLoop q.seq 0 (List.replicate q.index.length none) = _
    rw [fillLoop_eq q.seq 0 (List.replicate q.index.length none)
      (by rw [List.length_replicate]; rw [Nat.zero_add]; exact hwf.len_eq)]
    simp
  · intro q hseq hidx
    show fillLoop q.seq 0 (List.replicate q.index.length none) = some []
    rw [hseq, hidx]
    rfl
  · intro s s' h
    cases h
    exact ⟨rfl, rfl⟩

theorem clear_drains_without_firing_witness :
    ((qAB.clearOp).2 = some [some 1, some 2] ∧
      (qAB.clearOp).1.seq = [] ∧ (qAB.clearOp).1.index = [] ∧
      (qAB.clearOp).1.len = 0) ∧
    ((Queue.new Nat 5).clearOp).2 = some [] ∧
    ((⟨(qAB.clearQ).1, [], []⟩ : Sys Nat).threads = (Sys.init qAB).threads ∧
      (⟨(qAB.clearQ).1, [], []⟩ : Sys Nat).fired = (Sys.init qAB).fired) := by
  refine ⟨(clear_drains_without_firing (K := Nat)).1 qAB wf_qAB, ?_, ?_⟩
  · exact (clear_drains_without_firing (K := Nat)).2.1 (Queue.new Nat 5) rfl rfl
  · exact (clear_drains_without_firing (K := Nat)).2.2 (Sys.init qAB)
      ⟨(qAB.clearQ).1, [], []⟩ Step.clear

/-- C6: `Reset` on a present key recomputes the deadline to
`now + duration` at the reset instant and moves the element to the tail,
behind everything else, returning true and leaving the index unchanged;
on an absent key it returns false and changes nothing. -/
theorem reset_moves_to_tail {K : Type} [DecidableEq K] (q : Queue K)
    (v : K) (now : Nat) :
    (∀ i, WF q → lookupKey q.index v = some i →
      ∃ el, elemById q.seq i = some el ∧ el.v = v ∧ el.id = i ∧
        (q.reset v now).2.1 = true ∧
        (q.reset v now).1.seq =
          eraseById q.seq i ++ [{el with time := now + q.duration}] ∧
        (q.reset v now).1.index = q.index) ∧
    (lookupKey q.index v = none → q.reset v now = (q, false, none)) := by
  constructor
  · intro i hwf hl
    obtain ⟨e₀, he₀, hv₀, hi₀⟩ := hwf.elem_of_lookup hl
    obtain ⟨el, hel⟩ := elemById_isSome_of_mem he₀
    rw [hi₀] at hel
    obtain ⟨helm, heli⟩ := elemById_mem hel
    have helv : el.v = v := by
      have he : e₀ = el := elem_id_unique hwf.ids_nodup he₀ helm (by rw [hi₀, heli])
      rw [← he, hv₀]
    obtain ⟨h1, h2⟩ := reset_some_queue now hl hel
    exact ⟨el, hel, helv, heli, h2, by rw [h1], by rw [h1]⟩
  · exact reset_none

theorem reset_moves_to_tail_witness :
    (∃ el, elemById qAB.seq 0 = some el ∧ el.v = 1 ∧ el.id = 0 ∧
      (qAB.reset 1 10).2.1 = true ∧
      (qAB.reset 1 10).1.seq =
        eraseById qAB.seq 0 ++ [{el with time := 10 + qAB.duration}] ∧
      (qAB.reset 1 10).1.index = qAB.index) ∧
    qAB.reset 9 0 = (qAB, false, none) :=
  ⟨(reset_moves_to_tail qAB 1 10).1 0 wf_qAB rfl,
   (reset_moves_to_tail qAB 9 0).2 rfl⟩

/-- C7: `Remove` on a present key returns true and removes exactly that
item: the item leaves the sequence and the index while every other
element and index entry survives; afterwards the removed element's
identity is `Gone` from the queue, and a gone identity is never fired by
any waiter in any later reachable configuration.  `Remove` on an absent
key returns false and leaves the state unchanged. -/
theorem remove_correctness {K : Type} [DecidableEq K] :
    (∀ (q : Queue K) (v : K) (i : Nat), WF q → lookupKey q.index v = some i →
      (q.removeKey v).2.1 = true ∧
      (q.removeKey v).1.seq = eraseById q.seq i ∧
      (q.removeKey v).1.index = eraseKey q.index v ∧
      (∃ e₀, e₀ ∈ q.seq ∧ e₀.v = v ∧ e₀.id = i ∧
        e₀ ∉ (q.removeKey v).1.seq) ∧
      (∀ e ∈ q.seq, e.id ≠ i → e ∈ (q.removeKey v).1.seq) ∧
      (∀ k j, (k, j) ∈ (q.removeKey v).1.index ↔ (k, j) ∈ q.index ∧ k ≠ v) ∧
      (∀ (ts : List (Thread K)) (f : List (Nat × K)),
        Gone i ⟨(q.removeKey v).1, ts, f⟩)) ∧
    (∀ (q : Queue K) (v : K), lookupKey q.index v = none →
      q.removeKey v = (q, false, none)) ∧
    (∀ (s s' : Sys K) (i : Nat), Gone i s → Reaches s s' →
      ∀ k, (i, k) ∈ s'.fired → (i, k) ∈ s.fired) := by
  refine ⟨?_, ?_, ?_⟩
  · intro q v i hwf hl
    obtain ⟨e₀, he₀, hv₀, hi₀⟩ := hwf.elem_of_lookup hl
    obtain ⟨h1, h2⟩ := removeKey_some_queue hl
    refine ⟨h2, by rw [h1], by rw [h1], ⟨e₀, he₀, hv₀, hi₀, ?_⟩, ?_, ?_, ?_⟩
    · rw [h1]
      intro hmem
      exact ((mem_eraseById_iff hwf.ids_nodup i e₀).1 hmem).2 hi₀
    · intro e he hne
      rw [h1]
      exact (mem_eraseById_iff hwf.ids_nodup i e).2 ⟨he, hne⟩
    · intro k j
      rw [h1]
      exact mem_eraseKey_iff hwf.idx_keys_nodup v k j
    · intro ts f
      rw [h1]
      refine ⟨hi₀ ▸ hwf.ids_lt e₀ he₀, ?_⟩
      intro hmem
      obtain ⟨e, he, hei⟩ := List.mem_map.1 hmem
      exact ((mem_eraseById_iff hwf.ids_nodup i e).1 he).2 hei
  · intro q v hl
    exact removeKey_none hl
  · intro s s' i hg hr
    exact (hg.reaches_mono hr).2

theorem remove_correctness_witness :
    ((qAB.removeKey 2).2.1 = true ∧
      (qAB.removeKey 2).1.seq = eraseById qAB.seq 1 ∧
      (qAB.removeKey 2).1.index = eraseKey qAB.index 2 ∧
      (∃ e₀, e₀ ∈ qAB.seq ∧ e₀.v = 2 ∧ e₀.id = 1 ∧
        e₀ ∉ (qAB.removeKey 2).1.seq) ∧
      (∀ e ∈ qAB.seq, e.id ≠ 1 → e ∈ (qAB.removeKey 2).1.seq) ∧
      (∀ k j, (k, j) ∈ (qAB.removeKey 2).1.index ↔ (k, j) ∈ qAB.index ∧ k ≠ 2) ∧
      (∀ (ts : List (Thread Nat)) (f : List (Nat × Nat)),
        Gone 1 ⟨(qAB.removeKey 2).1, ts, f⟩)) ∧
    qAB.removeKey 9 = (qAB, false, none) ∧
    (∀ k, (1, k) ∈ (⟨(qAB.removeKey 2).1, [], []⟩ : Sys Nat).fired →
      (1, k) ∈ (⟨(qAB.removeKey 2).1, [], []⟩ : Sys Nat).fired) := by
  refine ⟨(remove_correctness (K := Nat)).1 qAB 2 1 wf_qAB rfl,
    (remove_correctness (K := Nat)).2.1 qAB 9 rfl, ?_⟩
  exact (remove_correctness (K := Nat)).2.2 ⟨(qAB.removeKey 2).1, [], []⟩
    ⟨(qAB.removeKey 2).1, [], []⟩ 1
    (((remove_correctness (K := Nat)).1 qAB 2 1 wf_qAB rfl).2.2.2.2.2.2 [] [])
    Relation.ReflTransGen.refl

/-- C9: `Reset` of a present key that is not the current head leaves the
head element at the front with the same identity and deadline and spawns
no waiter; conversely, a waiter is spawned only when the reset element
was the head. -/
theorem reset_nonhead_frame {K : Type} [DecidableEq K] (q : Queue K)
    (v : K) (now : Nat) :
    (∀ i e rest, WF q → q.seq = e :: rest → lookupKey q.index v = some i →
      e.id ≠ i →
      (q.reset v now).2.1 = true ∧
      (q.reset v now).1.seq.head? = some e ∧
      (q.reset v now).2.2 = none) ∧
    (∀ w, (q.reset v now).2.2 = some w →
      ∃ i e rest, lookupKey q.index v = some i ∧ q.seq = e :: rest ∧
        e.id = i) := by
  constructor
  · intro i e rest hwf hq hl hne
    obtain ⟨e₀, he₀, hv₀, hi₀⟩ := hwf.elem_of_lookup hl
    obtain ⟨el, hel⟩ := elemById_isSome_of_mem he₀
    rw [hi₀] at hel
    obtain ⟨h1, h2⟩ := reset_some_queue now hl hel
    refine ⟨h2, ?_, reset_waiter_nonhead hl hel hq hne⟩
    rw [h1]
    show (eraseById q.seq i ++ _).head? = some e
    rw [hq, eraseById_cons_of_ne hne]
    rfl
  · intro w hw
    cases hl : lookupKey q.index v with
    | none => rw [reset_none hl] at hw; cases hw
    | some i =>
      cases he : elemById q.seq i with
      | none =>
        have hr : q.reset v now = (q, false, none) := by
          simp [Queue.reset, hl, he]
        rw [hr] at hw
        cases hw
      | some el =>
        cases hq : q.seq with
        | nil => rw [hq] at he; simp [elemById] at he
        | cons e rest =>
          by_cases h0 : e.id = i
          · exact ⟨i, e, rest, rfl, rfl, h0⟩
          · rw [reset_waiter_nonhead hl he hq h0] at hw
            cases hw

theorem reset_nonhead_frame_witness :
    ((qAB.reset 2 10).2.1 = true ∧
      (qAB.reset 2 10).1.seq.head? = some ⟨0, 1, 5⟩ ∧
      (qAB.reset 2 10).2.2 = none) ∧
    (∃ i e rest, lookupKey qAB.index 1 = some i ∧ qAB.seq = e :: rest ∧
      e.id = i) :=
  ⟨(reset_nonhead_frame qAB 2 10).1 1 ⟨0, 1, 5⟩ [⟨1, 2, 6⟩] wf_qAB rfl rfl
      (by decide),
   (reset_nonhead_frame qAB 1 10).2 ⟨1, 6⟩ rfl⟩

/-- C2: every operation — `Add`, `Remove`, `Reset`, `Clear`, `Flush`'s
detach, and the waiter's expiration removal — preserves the data-model
invariant `WF`: the key index and the linked sequence are in 1:1
correspondence with no key appearing twice, the sequence is sorted
non-decreasing by deadline, and `Len` equals the number of indexed keys.
For `Add` and `Reset` the hypothesis that the fresh deadline
`now + duration` is no earlier than any deadline already in the queue
renders the monotonicity of `time.Now()` under the fixed duration. -/
theorem operations_preserve_invariant {K : Type} [DecidableEq K] :
    (∀ (q : Queue K) (v : K) (now : Nat) (q' : Queue K) (w : Option Waiter),
      WF q → (∀ e ∈ q.seq, e.time ≤ now + q.duration) →
      q.add v now = .ok (q', w) → WF q') ∧
    (∀ (q : Queue K) (v : K) (q' : Queue K) (b : Bool) (w : Option Waiter),
      WF q → q.removeKey v = (q', b, w) → WF q') ∧
    (∀ (q : Queue K) (v : K) (now : Nat) (q' : Queue K) (b : Bool)
      (w : Option Waiter),
      WF q → (∀ e ∈ q.seq, e.time ≤ now + q.duration) →
      q.reset v now = (q', b, w) → WF q') ∧
    (∀ q : Queue K, WF ((q.clearQ).1)) ∧
    (∀ q : Queue K, WF ((q.flushDetach).1)) ∧
    (∀ (q : Queue K) (i t : Nat) (q' : Queue K) (fv : Option K)
      (c : Option Waiter),
      WF q → q.wake i t = (q', fv, c) → WF q') ∧
    (∀ q : Queue K, WF q → q.len = q.index.length ∧ q.len = q.seq.length) := by
  refine ⟨?_, ?_, ?_, ?_, ?_, ?_, ?_⟩
  · intro q v now q' w hwf hmono h
    exact hwf.add_preserved hmono h
  · intro q v q' b w hwf h
    exact hwf.removeKey_preserved h
  · intro q v now q' b w hwf hmono h
    exact hwf.reset_preserved hmono h
  · intro q
    exact WF.clearQ_preserved q
  · intro q
    exact WF.clearQ_preserved q
  · intro q i t q' fv c hwf h
    exact hwf.wake_preserved h
  · intro q hwf
    exact ⟨rfl, hwf.len_eq⟩

theorem operations_preserve_invariant_witness :
    WF (⟨[⟨0, 1, 5⟩, ⟨1, 2, 6⟩, ⟨2, 3, 12⟩], [(3, 2), (2, 1), (1, 0)], 3, 5⟩ :
      Queue Nat) ∧
    WF ((qAB.removeKey 2).1) ∧
    WF ((qAB.reset 1 10).1) ∧
    WF ((qAB.clearQ).1) ∧
    WF ((qAB.flushDetach).1) ∧
    WF ((qAB.wake 0 5).1) ∧
    (qAB.len = qAB.index.length ∧ qAB.len = qAB.seq.length) := by
  refine ⟨?_, ?_, ?_, ?_, ?_, ?_, ?_⟩
  · exact (operations_preserve_invariant (K := Nat)).1 qAB 3 7 _ none wf_qAB
      (by decide) rfl
  · exact (operations_preserve_invariant (K := Nat)).2.1 qAB 2
      (qAB.removeKey 2).1 (qAB.removeKey 2).2.1 (qAB.removeKey 2).2.2 wf_qAB rfl
  · exact (operations_preserve_invariant (K := Nat)).2.2.1 qAB 1 10
      (qAB.reset 1 10).1 (qAB.reset 1 10).2.1 (qAB.reset 1 10).2.2 wf_qAB
      (by decide) rfl
  · exact (operations_preserve_invariant (K := Nat)).2.2.2.1 qAB
  · exact (operations_preserve_invariant (K := Nat)).2.2.2.2.1 qAB
  · exact (operations_preserve_invariant (K := Nat)).2.2.2.2.2.1 qAB 0 5
      (qAB.wake 0 5).1 (qAB.wake 0 5).2.1 (qAB.wake 0 5).2.2 wf_qAB rfl
  · exact (operations_preserve_invariant (K := Nat)).2.2.2.2.2.2 qAB wf_qAB

/-- C1: (i) a waiter waking to an empty queue, and (ii) a waiter whose
remembered element is no longer the head or whose remembered deadline is
not the head's deadline, terminates without removing anything and
without firing; (iii) a waiter fires only when the head carries exactly
its remembered (identity, deadline) snapshot, so (iv) a head whose
deadline was moved by `Reset` to a different value after the snapshot is
never fired by that waiter; and (v) along any execution the ghost log of
waiter firings never repeats an element identity: no two waiters (nor
the same waiter twice) ever fire the same item. -/
theorem timer_waiter_protocol {K : Type} [DecidableEq K] :
    (∀ (q : Queue K) (w : Waiter), q.seq = [] →
      q.wake w.elemId w.time = (q, none, none)) ∧
    (∀ (q : Queue K) (w : Waiter) (e : Elem K) (rest : List (Elem K)),
      q.seq = e :: rest → ¬(e.id = w.elemId ∧ e.time = w.time) →
      q.wake w.elemId w.time = (q, none, none)) ∧
    (∀ (q : Queue K) (i t : Nat) (q' : Queue K) (k : K) (c : Option Waiter),
      q.wake i t = (q', some k, c) →
      ∃ e rest, q.seq = e :: rest ∧ e.id = i ∧ e.time = t ∧ k = e.v) ∧
    (∀ (q : Queue K) (w : Waiter) (e : Elem K) (rest : List (Elem K)),
      q.seq = e :: rest → e.id = w.elemId → e.time ≠ w.time →
      q.wake w.elemId w.time = (q, none, none)) ∧
    (∀ (s s' : Sys K), SysInv s → Reaches s s' →
      (s'.fired.map Prod.fst).Nodup) := by
  refine ⟨?_, ?_, ?_, ?_, ?_⟩
  · intro q w hq
    exact wake_empty hq
  · intro q w e rest hq hne
    exact wake_stale hq hne
  · intro q i t q' k c h
    obtain ⟨e, rest, hq, hid, ht, hk, -, -⟩ := wake_fire_elim h
    exact ⟨e, rest, hq, hid, ht, hk⟩
  · intro q w e rest hq hid hne
    exact wake_stale hq (fun hc => hne hc.2)
  · intro s s' hinv hr
    exact (hinv.reaches_preserved hr).fired_nodup

theorem timer_waiter_protocol_witness :
    (Queue.new Nat 5).wake 0 5 = (Queue.new Nat 5, none, none) ∧
    qAB.wake 7 5 = (qAB, none, none) ∧
    (∃ e rest, qAB.seq = e :: rest ∧ e.id = 0 ∧ e.time = 5 ∧ 1 = e.v) ∧
    qAB.wake 0 9 = (qAB, none, none) ∧
    ((Sys.init qAB).fired.map Prod.fst).Nodup := by
  refine ⟨?_, ?_, ?_, ?_, ?_⟩
  · exact (timer_waiter_protocol (K := Nat)).1 (Queue.new Nat 5) ⟨0, 5⟩ rfl
  · exact (timer_waiter_protocol (K := Nat)).2.1 qAB ⟨7, 5⟩ ⟨0, 1, 5⟩ [⟨1, 2, 6⟩]
      rfl (by decide)
  · exact (timer_waiter_protocol (K := Nat)).2.2.1 qAB 0 5
      ⟨[⟨1, 2, 6⟩], [(2, 1)], 2, 5⟩ 1 (some ⟨1, 6⟩) rfl
  · exact (timer_waiter_protocol (K := Nat)).2.2.2.1 qAB ⟨0, 9⟩ ⟨0, 1, 5⟩
      [⟨1, 2, 6⟩] rfl rfl (by decide)
  · exact (timer_waiter_protocol (K := Nat)).2.2.2.2 (Sys.init qAB)
      (Sys.init qAB) (SysInv.init (by decide) (by decide))
      Relation.ReflTransGen.refl

/-- C4: `Flush` atomically detaches the entire sequence and empties the
index, the callback sequence being exactly the detached items in order
(conjunct i; conjunct ii for the `flushStart` transition, which spawns
the flusher holding that snapshot in the same atomic step that empties
the queue, firing nothing yet); the callbacks then run outside the lock
as separate transitions, and an `Add` during the flush leaves every
flusher's outstanding items unchanged, so items added during the flush —
including by the callback itself — are not flushed (conjunct iii); each
flush callback invocation takes exactly the first outstanding item of
the snapshot (conjunct iv); and on an empty queue the callback sequence
is empty (conjunct v). -/
theorem flush_snapshot_semantics {K : Type} [DecidableEq K] :
    (∀ q : Queue K, q.flushDetach =
      (⟨[], [], q.nextId, q.duration⟩, q.seq.map (fun e => e.v))) ∧
    (∀ s s' : Sys K, Step .flushStart s s' →
      s'.q.seq = [] ∧ s'.q.index = [] ∧
      s'.threads = s.threads ++ [.flushing (s.q.seq.map (fun e => e.v))] ∧
      s'.fired = s.fired) ∧
    (∀ (s s' : Sys K) (v : K) (now : Nat), Step (.add v now) s s' →
      flushPendings s'.threads = flushPendings s.threads) ∧
    (∀ (s s' : Sys K) (k : K), Step (.flushCall k) s s' →
      ∃ ts₁ ts₂ r, s.threads = ts₁ ++ .flushing (k :: r) :: ts₂ ∧
        s'.threads = ts₁ ++ .flushCalling k r :: ts₂) ∧
    (∀ q : Queue K, q.seq = [] → (q.flushDetach).2 = []) := by
  refine ⟨?_, ?_, ?_, ?_, ?_⟩
  · intro q
    rfl
  · intro s s' h
    cases h
    exact ⟨rfl, rfl, rfl, rfl⟩
  · intro s s' v now h
    cases h with
    | @add q v' now' q' w ts f h1 =>
      show flushPendings (ts ++ spawnList w) = flushPendings ts
      cases w <;> simp [flushPendings, spawnList, List.filterMap_append]
  · intro s s' k h
    cases h with
    | @flushCall q k' r ts₁ ts₂ f =>
      exact ⟨ts₁, ts₂, r, rfl, rfl⟩
  · intro q hq
    show q.seq.map (fun e => e.v) = []
    rw [hq]
    rfl

theorem flush_snapshot_semantics_witness :
    qAB.flushDetach = (⟨[], [], 2, 5⟩, [1, 2]) ∧
    ((⟨(qAB.clearQ).1, [Thread.flushing [1, 2]], []⟩ : Sys Nat).q.seq = [] ∧
      (⟨(qAB.clearQ).1, [Thread.flushing [1, 2]], []⟩ : Sys Nat).q.index = [] ∧
      (⟨(qAB.clearQ).1, [Thread.flushing [1, 2]], []⟩ : Sys Nat).threads =
        (Sys.init qAB).threads ++
          [.flushing ((Sys.init qAB).q.seq.map (fun e => e.v))] ∧
      (⟨(qAB.clearQ).1, [Thread.flushing [1, 2]], []⟩ : Sys Nat).fired =
        (Sys.init qAB).fired) ∧
    flushPendings
        ((⟨⟨[⟨0, 1, 5⟩, ⟨1, 2, 6⟩, ⟨2, 3, 12⟩], [(3, 2), (2, 1), (1, 0)], 3, 5⟩,
          [Thread.flushing [9]], []⟩ : Sys Nat).threads) =
      flushPendings ((⟨qAB, [Thread.flushing [9]], []⟩ : Sys Nat).threads) ∧
    (∃ ts₁ ts₂ r,
      (⟨qAB, [Thread.flushing [5]], []⟩ : Sys Nat).threads =
        ts₁ ++ .flushing (5 :: r) :: ts₂ ∧
      (⟨qAB, [Thread.flushCalling 5 []], []⟩ : Sys Nat).threads =
        ts₁ ++ .flushCalling 5 r :: ts₂) ∧
    ((Queue.new Nat 5).flushDetach).2 = [] := by
  refine ⟨?_, ?_, ?_, ?_, ?_⟩
  · exact (flush_snapshot_semantics (K := Nat)).1 qAB
  · exact (flush_snapshot_semantics (K := Nat)).2.1 (Sys.init qAB)
      ⟨(qAB.clearQ).1, [Thread.flushing [1, 2]], []⟩ Step.flushStart
  · exact (flush_snapshot_semantics (K := Nat)).2.2.1
      ⟨qAB, [Thread.flushing [9]], []⟩
      ⟨⟨[⟨0, 1, 5⟩, ⟨1, 2, 6⟩, ⟨2, 3, 12⟩], [(3, 2), (2, 1), (1, 0)], 3, 5⟩,
        [Thread.flushing [9]], []⟩ 3 7
      (@Step.add Nat _ qAB 3 7
        ⟨[⟨0, 1, 5⟩, ⟨1, 2, 6⟩, ⟨2, 3, 12⟩], [(3, 2), (2, 1), (1, 0)], 3, 5⟩
        none [Thread.flushing [9]] [] rfl)
  · exact (flush_snapshot_semantics (K := Nat)).2.2.2.1
      ⟨qAB, [Thread.flushing [5]], []⟩
      ⟨qAB, [Thread.flushCalling 5 []], []⟩ 5
      (@Step.flushCall Nat _ qAB 5 [] [] [] [])
  · exact (flush_snapshot_semantics (K := Nat)).2.2.2.2 (Queue.new Nat 5) rfl

/-! ## The callback serialization race (C8) -/

/-- Initial state of the race scenario: a fresh queue with duration 5. -/
def flushRaceSys0 : Sys Nat := Sys.init (Queue.new Nat 5)

/-- After `Add(1)` at time 0: element id 0, deadline 5; its waiter is
asleep. -/
def flushRaceSys1 : Sys Nat :=
  ⟨⟨[⟨0, 1, 5⟩], [(1, 0)], 1, 5⟩, [.sleeping ⟨0, 5⟩], []⟩

/-- After `Add(2)` at time 0: element id 1, deadline 5, behind id 0. -/
def flushRaceSys2 : Sys Nat :=
  ⟨⟨[⟨0, 1, 5⟩, ⟨1, 2, 5⟩], [(2, 1), (1, 0)], 2, 5⟩, [.sleeping ⟨0, 5⟩], []⟩

/-- The waiter wakes at deadline 5, passes the head check, unlinks id 0
and enters `cb(1)` while the queue still holds id 1. -/
def flushRaceSys3 : Sys Nat :=
  ⟨⟨[⟨1, 2, 5⟩], [(2, 1)], 2, 5⟩, [.calling 1 (some ⟨1, 5⟩)], [(0, 1)]⟩

/-- A concurrent `Flush` detaches id 1 while the waiter is still inside
`cb(1)`. -/
def flushRaceSys4 : Sys Nat :=
  ⟨⟨[], [], 2, 5⟩, [.calling 1 (some ⟨1, 5⟩), .flushing [2]], [(0, 1)]⟩

/-- The `Flush` caller enters `cb(2)`: two callback invocations are now
running at once. -/
def flushRaceSys5 : Sys Nat :=
  ⟨⟨[], [], 2, 5⟩, [.calling 1 (some ⟨1, 5⟩), .flushCalling 2 []],
   [(0, 1)]⟩

/-- C8 counterexample: the component does not serialize callback
invocations.  From a fresh queue, `Add(1)`, `Add(2)`, the waiter firing
item 1, then a concurrent `Flush` detaching and firing item 2 while the
waiter is still inside its callback, reaches a state with two callback
invocations executing at the same time. -/
theorem callback_serialization_counterexample :
    Reaches flushRaceSys0 flushRaceSys5 ∧
    runningCallbacks flushRaceSys5 = 2 := by
  constructor
  · have h01 : StepAny flushRaceSys0 flushRaceSys1 :=
      ⟨.add 1 0, @Step.add Nat _ (Queue.new Nat 5) 1 0
        ⟨[⟨0, 1, 5⟩], [(1, 0)], 1, 5⟩ (some ⟨0, 5⟩) [] [] rfl⟩
    have h12 : StepAny flushRaceSys1 flushRaceSys2 :=
      ⟨.add 2 0, @Step.add Nat _ flushRaceSys1.q 2 0
        ⟨[⟨0, 1, 5⟩, ⟨1, 2, 5⟩], [(2, 1), (1, 0)], 2, 5⟩ none
        [.sleeping ⟨0, 5⟩] [] rfl⟩
    have h23 : StepAny flushRaceSys2 flushRaceSys3 :=
      ⟨.wakeFire ⟨0, 5⟩ 1, @Step.wakeFire Nat _ flushRaceSys2.q ⟨0, 5⟩
        ⟨[⟨1, 2, 5⟩], [(2, 1)], 2, 5⟩ 1 (some ⟨1, 5⟩) [] [] [] rfl⟩
    have h34 : StepAny flushRaceSys3 flushRaceSys4 :=
      ⟨.flushStart, @Step.flushStart Nat _ flushRaceSys3.q
        [.calling 1 (some ⟨1, 5⟩)] [(0, 1)]⟩
    have h45 : StepAny flushRaceSys4 flushRaceSys5 :=
      ⟨.flushCall 2, @Step.flushCall Nat _ flushRaceSys4.q 2 []
        [.calling 1 (some ⟨1, 5⟩)] [] [(0, 1)]⟩
    exact Relation.ReflTransGen.head h01
      (Relation.ReflTransGen.head h12
        (Relation.ReflTransGen.head h23
          (Relation.ReflTransGen.head h34
            (Relation.ReflTransGen.head h45 Relation.ReflTransGen.refl))))
  · rfl

/-- C8 (amended): the callback is invoked exactly once per firing or
flush occurrence of an item — along any execution the waiter fired log
never repeats an element identity, a waiter firing logs exactly its one
occurrence as it enters the callback, and each flush callback invocation
consumes exactly the first outstanding item of its flush's snapshot, so
it is made once per detached item.  Each invocation runs outside
exclusive access, as a transition of its own.  The component does not,
however, serialize a `Flush` callback against a concurrently running
waiter callback: the two can execute at the same time (see
the accompanying counterexample). -/
theorem callback_once_per_occurrence {K : Type} [DecidableEq K] :
    (∀ (s s' : Sys K), SysInv s → Reaches s s' →
      (s'.fired.map Prod.fst).Nodup) ∧
    (∀ (s s' : Sys K) (w : Waiter) (k : K), Step (.wakeFire w k) s s' →
      s'.fired = s.fired ++ [(w.elemId, k)]) ∧
    (∀ (s s' : Sys K) (k : K), Step (.flushRet k) s s' →
      ∃ ts₁ ts₂ r, s.threads = ts₁ ++ .flushCalling k r :: ts₂ ∧
        s'.threads = ts₁ ++ .flushing r :: ts₂) := by
  refine ⟨?_, ?_, ?_⟩
  · intro s s' hinv hr
    exact (hinv.reaches_preserved hr).fired_nodup
  · intro s s' w k h
    cases h
    rfl
  · intro s s' k h
    cases h with
    | @flushRet q k' r ts₁ ts₂ f =>
      exact ⟨ts₁, ts₂, r, rfl, rfl⟩

theorem callback_once_per_occurrence_witness :
    ((Sys.init (Queue.new Nat 5)).fired.map Prod.fst).Nodup ∧
    flushRaceSys3.fired = flushRaceSys2.fired ++ [(0, 1)] ∧
    (∃ ts₁ ts₂ r,
      (⟨qAB, [Thread.flushCalling 5 []], []⟩ : Sys Nat).threads =
        ts₁ ++ .flushCalling 5 r :: ts₂ ∧
      (⟨qAB, [Thread.flushing []], []⟩ : Sys Nat).threads =
        ts₁ ++ .flushing r :: ts₂) := by
  refine ⟨?_, ?_, ?_⟩
  · exact (callback_once_per_occurrence (K := Nat)).1
      (Sys.init (Queue.new Nat 5)) (Sys.init (Queue.new Nat 5))
      (SysInv.init (by decide) (by decide)) Relation.ReflTransGen.refl
  · exact (callback_once_per_occurrence (K := Nat)).2.1 flushRaceSys2
      flushRaceSys3 ⟨0, 5⟩ 1
      (@Step.wakeFire Nat _ flushRaceSys2.q ⟨0, 5⟩
        ⟨[⟨1, 2, 5⟩], [(2, 1)], 2, 5⟩ 1 (some ⟨1, 5⟩) [] [] [] rfl)
  · exact (callback_once_per_occurrence (K := Nat)).2.2
      ⟨qAB, [Thread.flushCalling 5 []], []⟩
      ⟨qAB, [Thread.flushing []], []⟩ 5
      (@Step.flushRet Nat _ qAB 5 [] [] [] [])

end Timerqueue
